import Mathlib

/-!
Shallow embedding of the `shared_lru` crate (src/allocator.rs, src/lib.rs,
src/lru_map.rs) and proofs about the claims of its specification.

Rust `HashMap`s are modelled as association lists with replace-on-insert
semantics; the external `lru::LruCache` used by `Allocator` is modelled as a
list ordered least-recently-used first (head = LRU victim of `pop_lru`,
`put` appends as most-recently-used, `get` promotes to most-recently-used).
The allocator's random number generator is modelled as the finite list of
draws the run consumes; exhausting it is a distinguished error, as is a
Rust panic (`expect`/`unwrap` failure).
-/

namespace SharedLru

/-! ### Association-list model of `HashMap` -/

/-- Lookup in an association list (`HashMap::get`). -/
def alLookup {α β : Type} [DecidableEq α] : List (α × β) → α → Option β
  | [], _ => none
  | (a, b) :: t, k => if a = k then some b else alLookup t k

/-- `HashMap::insert`: replace the binding if the key is present, else add it. -/
def alInsert {α β : Type} [DecidableEq α] : List (α × β) → α → β → List (α × β)
  | [], k, v => [(k, v)]
  | (a, b) :: t, k, v => if a = k then (k, v) :: t else (a, b) :: alInsert t k v

/-- `HashMap::remove`: remove the binding and return its value, if present. -/
def alRemove {α β : Type} [DecidableEq α] : List (α × β) → α → Option β × List (α × β)
  | [], _ => (none, [])
  | (a, b) :: t, k =>
    if a = k then (some b, t)
    else
      let (r, t') := alRemove t k
      (r, (a, b) :: t')

/-- `HashMap::contains_key`. -/
def alContains {α β : Type} [DecidableEq α] (l : List (α × β)) (k : α) : Bool :=
  (alLookup l k).isSome

/-! ### Model of the external `lru::LruCache<EntryId, usize>` used by `Allocator`

The list is kept least-recently-used first: `pop_lru` takes the head,
`put` of a fresh key appends at the tail (most recently used), `get`
promotes the key to the tail. Entry ids are natural numbers; the source's
`NonZeroUsize` invariant is the provable fact that generated ids are
nonzero. -/

/-- `lru::LruCache::pop_lru`: remove and return the least-recently-used pair. -/
def lruPop (l : List (Nat × Nat)) : Option ((Nat × Nat) × List (Nat × Nat)) :=
  match l with
  | [] => none
  | p :: rest => some (p, rest)

/-- `lru::LruCache::put`: insert as most-recently-used, replacing any
existing binding of the key. -/
def lruPut (l : List (Nat × Nat)) (id sz : Nat) : List (Nat × Nat) :=
  (l.filter (fun p => p.1 ≠ id)) ++ [(id, sz)]

/-- `lru::LruCache::get`: promote the key to most-recently-used if present. -/
def lruPromote (l : List (Nat × Nat)) (id : Nat) : List (Nat × Nat) :=
  match alLookup l id with
  | none => l
  | some sz => (l.filter (fun p => p.1 ≠ id)) ++ [(id, sz)]

/-- `lru::LruCache::contains`. -/
def lruContains (l : List (Nat × Nat)) (id : Nat) : Bool :=
  alContains l id

/-- Total bytes charged to the entries of the recency structure. -/
def sumSizes (l : List (Nat × Nat)) : Nat :=
  (l.map Prod.snd).sum

/-! ### `Allocator` (src/allocator.rs) -/

/-- The result of `Allocator::try_alloc` (src/allocator.rs, `AllocResult`). -/
inductive AllocResult : Type
  | success (id : Nat)
  | evict (id : Nat)
  | tooLarge
deriving DecidableEq, Repr

/-- Errors of the embedding: `panic` models a Rust panic (a failed
`expect`/`unwrap`), `rngOut` means the modelled finite list of random draws
was exhausted (the source's unbounded retry loop did not yet return), and
`fuelOut` means the fuel given to a modelled `loop` ran out before the loop
returned. -/
inductive RunErr : Type
  | panic
  | rngOut
  | fuelOut
deriving DecidableEq, Repr

/-- `Allocator` (src/allocator.rs): `used`/`capacity` byte counters, the
`evicting` hysteresis flag, the random-draw stream, and the recency
structure of allocated ids with their charged sizes. -/
structure Allocator : Type where
  used : Nat
  capacity : Nat
  evicting : Bool
  rng : List Nat
  allocated : List (Nat × Nat)
deriving DecidableEq, Repr

namespace Allocator

/-- `Allocator::new` (the rng draws are a model parameter). -/
def new (capacity : Nat) (rng : List Nat) : Allocator :=
  { used := 0, capacity := capacity, evicting := false, rng := rng, allocated := [] }

/-- `Allocator::get_id`: draw random ids until one is nonzero and not already
allocated; returns the id and the remaining draws, or `none` when the
modelled draws are exhausted. -/
def get_id (rng : List Nat) (allocated : List (Nat × Nat)) : Option (Nat × List Nat) :=
  match rng with
  | [] => none
  | r :: rest =>
    if r ≠ 0 ∧ ¬ (lruContains allocated r = true) then some (r, rest)
    else get_id rest allocated

/-- The value of the `evicting` flag after the two leading checks of
`try_alloc` (src/allocator.rs lines 29–39): set on overflow, cleared when
usage has dropped below 7/8 of capacity, otherwise kept. -/
def ev_flag (a : Allocator) (bytes : Nat) : Bool :=
  if a.used + bytes > a.capacity then true
  else if a.used < a.capacity / 8 * 7 then false
  else a.evicting

/-- `Allocator::try_alloc` (src/allocator.rs lines 24–51). -/
def try_alloc (a : Allocator) (bytes : Nat) : Except RunErr (AllocResult × Allocator) :=
  if bytes > a.capacity then
    .ok (.tooLarge, a)
  else
    let ev := ev_flag a bytes
    let a1 : Allocator := { a with evicting := ev }
    if ev then
      match lruPop a1.allocated with
      | none => .error .panic
      | some ((id, sz), rest) =>
        .ok (.evict id, { a1 with allocated := rest, used := a1.used - sz })
    else
      match get_id a1.rng a1.allocated with
      | none => .error .rngOut
      | some (id, rng') =>
        .ok (.success id,
          { a1 with rng := rng', allocated := lruPut a1.allocated id bytes,
                    used := a1.used + bytes })

/-- `Allocator::set_newest`: touch the id in the recency structure. -/
def set_newest (a : Allocator) (id : Nat) : Allocator :=
  { a with allocated := lruPromote a.allocated id }

end Allocator

/-! ### `EntryMap` and the coordination layer (src/lib.rs)

One typed cache instance is modelled: `InnerShared` carries the allocator
and the set of registered ids (`entry_holders`), and the single live
cache's `EntryMap` is threaded alongside, standing for the weak
`EntryHolder` that every registered id resolves to (the weak upgrade always
succeeds while the cache is alive). -/

/-- `EntryMap` (src/lib.rs lines 155–159): value-by-id, id-by-key and
key-by-id maps of one cache store. -/
structure EntryMap (K V : Type) : Type where
  values : List (Nat × V)
  ids : List (K × Nat)
  id_keys : List (Nat × K)
deriving DecidableEq, Repr

namespace EntryMap

/-- `EntryMap::default`. -/
def empty {K V : Type} : EntryMap K V := ⟨[], [], []⟩

/-- `EntryMap::insert` (src/lib.rs lines 165–172): store the value under the
id and point the key at the id. -/
def insert {K V : Type} [DecidableEq K] (em : EntryMap K V) (id : Nat) (key : K)
    (value : V) : EntryMap K V :=
  { values := alInsert em.values id value,
    ids := alInsert em.ids key id,
    id_keys := alInsert em.id_keys id key }

/-- `EntryMap::get`. -/
def get {K V : Type} [DecidableEq K] (em : EntryMap K V) (key : K) : Option V :=
  match alLookup em.ids key with
  | none => none
  | some id => alLookup em.values id

/-- `EntryMap::get_id`. -/
def get_id {K V : Type} [DecidableEq K] (em : EntryMap K V) (key : K) : Option Nat :=
  alLookup em.ids key

/-- `EntryMap::remove` (src/lib.rs lines 183–188); each `?` early-returns
with the mutations made so far kept, exactly as in the source. -/
def remove {K V : Type} [DecidableEq K] (em : EntryMap K V) (id : Nat) :
    Option (K × V) × EntryMap K V :=
  match alRemove em.id_keys id with
  | (none, idk') => (none, { em with id_keys := idk' })
  | (some key, idk') =>
    let em1 : EntryMap K V := { em with id_keys := idk' }
    match alRemove em1.ids key with
    | (none, ids') => (none, { em1 with ids := ids' })
    | (some _, ids') =>
      let em2 : EntryMap K V := { em1 with ids := ids' }
      match alRemove em2.values id with
      | (none, vals') => (none, { em2 with values := vals' })
      | (some value, vals') => (some (key, value), { em2 with values := vals' })

end EntryMap

/-- Insertion into the `entry_holders` registry (`HashMap::insert` on a map
whose values are all the one live holder: only the key set matters). -/
def holdersInsert (l : List Nat) (id : Nat) : List Nat :=
  if l.contains id then l else l ++ [id]

/-- `InnerShared` (src/lib.rs lines 51–54): the allocator plus the registry
of ids with a registered eviction holder. -/
structure InnerShared : Type where
  allocator : Allocator
  entry_holders : List Nat
deriving DecidableEq, Repr

namespace InnerShared

/-- `InnerShared::evict` (src/lib.rs lines 70–78): remove the id's registry
entry (panicking if absent, `expect("should have entry holder for id")`),
then upgrade the weak holder and evict the id from the owning store. -/
def evict {K V : Type} [DecidableEq K] (inner : InnerShared) (em : EntryMap K V)
    (id : Nat) : Except RunErr (InnerShared × EntryMap K V) :=
  if inner.entry_holders.contains id then
    .ok ({ inner with entry_holders := inner.entry_holders.erase id },
      (em.remove id).2)
  else .error .panic

/-- `InnerShared::claim` (src/lib.rs lines 57–68): loop on `try_alloc`,
evicting victims until success or rejection. `fuel` bounds the modelled
`loop`. -/
def claim {K V : Type} [DecidableEq K] (fuel : Nat) (inner : InnerShared)
    (em : EntryMap K V) (bytes : Nat) :
    Except RunErr (Option Nat × InnerShared × EntryMap K V) :=
  match fuel with
  | 0 => .error .fuelOut
  | Nat.succ fuel =>
    match Allocator.try_alloc inner.allocator bytes with
    | .error e => .error e
    | .ok (.success id, a') =>
      .ok (some id,
        { inner with allocator := a',
                     entry_holders := holdersInsert inner.entry_holders id }, em)
    | .ok (.evict id, a') =>
      match evict { inner with allocator := a' } em id with
      | .error e => .error e
      | .ok (inner', em') => claim fuel inner' em' bytes
    | .ok (.tooLarge, a') => .ok (none, { inner with allocator := a' }, em)

/-- `InnerShared::touch`. -/
def touch (inner : InnerShared) (id : Nat) : InnerShared :=
  { inner with allocator := inner.allocator.set_newest id }

end InnerShared

/-- `LruCache::insert` (src/lib.rs lines 95–106): claim `key.bytes() +
value.bytes()` from the shared pool and, when an id is granted, store the
pair under it. The size oracle is the pair of functions `bytesK`/`bytesV`. -/
def cache_insert {K V : Type} [DecidableEq K] (bytesK : K → Nat) (bytesV : V → Nat)
    (fuel : Nat) (inner : InnerShared) (em : EntryMap K V) (k : K) (v : V) :
    Except RunErr (InnerShared × EntryMap K V) :=
  match InnerShared.claim fuel inner em (bytesK k + bytesV v) with
  | .error e => .error e
  | .ok (some id, inner', em') => .ok (inner', em'.insert id k v)
  | .ok (none, inner', em') => .ok (inner', em')

/-- `LruCache::get` (src/lib.rs lines 108–115): look the key's id up, touch
it globally, then re-resolve the key to its value. -/
def cache_get {K V : Type} [DecidableEq K] (inner : InnerShared) (em : EntryMap K V)
    (k : K) : Option V × InnerShared :=
  match em.get_id k with
  | none => (none, inner)
  | some id =>
    let inner' := inner.touch id
    (em.get k, inner')

/-! ### `LruMap` (src/lru_map.rs)

The in-repository recency map: a doubly linked list of keys realized over
the key→entry hash map. Operations that can early-return through `?` are
modelled as returning the `Option` outcome together with the state as
mutated so far, exactly mirroring the source's in-place mutations. -/

/-- `Entry` (src/lru_map.rs lines 90–95). -/
structure Entry (K V : Type) : Type where
  value : V
  next : Option K
  prev : Option K
deriving DecidableEq, Repr

/-- `LruMap` (src/lru_map.rs lines 3–8). -/
structure LruMap (K V : Type) : Type where
  items : List (K × Entry K V)
  oldest : Option K
  newest : Option K
deriving DecidableEq, Repr

namespace LruMap

/-- `LruMap::new`. -/
def new {K V : Type} : LruMap K V := ⟨[], none, none⟩

/-- `LruMap::contains_key`. -/
def contains_key {K V : Type} [DecidableEq K] (m : LruMap K V) (key : K) : Bool :=
  alContains m.items key

/-- `LruMap::remove_entry` (src/lru_map.rs lines 52–66): unlink the key's
entry from its neighbours (or move the `oldest`/`newest` sentinels); each
`?` early-returns keeping the mutations already made. -/
def remove_entry {K V : Type} [DecidableEq K] (m : LruMap K V) (key : K) :
    Option Unit × LruMap K V :=
  match alLookup m.items key with
  | none => (none, m)
  | some entry =>
    let step1 : Option Unit × LruMap K V :=
      match entry.prev with
      | some p =>
        match alLookup m.items p with
        | none => (none, m)
        | some e =>
          (some (), { m with items := alInsert m.items p { e with next := entry.next } })
      | none => (some (), { m with oldest := entry.next })
    match step1 with
    | (none, m1) => (none, m1)
    | (some _, m1) =>
      match entry.next with
      | some n =>
        match alLookup m1.items n with
        | none => (none, m1)
        | some e =>
          (some (), { m1 with items := alInsert m1.items n { e with prev := entry.prev } })
      | none => (some (), { m1 with newest := entry.prev })

/-- `LruMap::insert_newest` (src/lru_map.rs lines 68–87): link the key's
entry in as newest. -/
def insert_newest {K V : Type} [DecidableEq K] (m : LruMap K V) (key : K) :
    Option Unit × LruMap K V :=
  match alLookup m.items key with
  | none => (none, m)
  | some entry =>
    let m1 : LruMap K V :=
      { m with items := alInsert m.items key { entry with prev := m.newest, next := none } }
    let m2 : LruMap K V :=
      match m1.oldest with
      | some _ => m1
      | none => { m1 with oldest := some key }
    match m2.newest with
    | none => (some (), { m2 with newest := some key })
    | some n =>
      match alLookup m2.items n with
      | none => (none, m2)
      | some e =>
        (some (),
          { m2 with items := alInsert m2.items n { e with next := some key },
                    newest := some key })

/-- `LruMap::insert` (src/lru_map.rs lines 22–31): put a fresh unlinked
entry into the hash map (replacing any existing one) and link it as newest;
the `Option` result of `insert_newest` is discarded, as in the source. -/
def insert {K V : Type} [DecidableEq K] (m : LruMap K V) (key : K) (value : V) :
    LruMap K V :=
  let m1 : LruMap K V :=
    { m with items := alInsert m.items key ⟨value, none, none⟩ }
  (insert_newest m1 key).2

/-- `LruMap::take_oldest` (src/lru_map.rs lines 37–44). -/
def take_oldest {K V : Type} [DecidableEq K] (m : LruMap K V) :
    Option (K × V) × LruMap K V :=
  match m.oldest with
  | none => (none, m)
  | some oldest =>
    match remove_entry m oldest with
    | (none, m1) => (none, m1)
    | (some _, m1) =>
      match alRemove m1.items oldest with
      | (none, items') => (none, { m1 with items := items' })
      | (some entry, items') => (some (oldest, entry.value), { m1 with items := items' })

/-- `LruMap::set_newest` (src/lru_map.rs lines 46–50). -/
def set_newest {K V : Type} [DecidableEq K] (m : LruMap K V) (key : K) :
    Option Unit × LruMap K V :=
  match remove_entry m key with
  | (none, m1) => (none, m1)
  | (some _, m1) => insert_newest m1 key

end LruMap

/-- Run a sequence of `try_alloc` requests from a starting allocator,
collecting the reported results (used by concrete counterexample traces). -/
def runAllocs (a : Allocator) : List Nat → Except RunErr (List AllocResult × Allocator)
  | [] => .ok ([], a)
  | b :: bs =>
    match a.try_alloc b with
    | .error e => .error e
    | .ok (r, a') =>
      match runAllocs a' bs with
      | .error e => .error e
      | .ok (rs, a'') => .ok (r :: rs, a'')

/-! ### The allocator's intended invariant -/

/-- The allocator invariant: `used` is exactly the total of the sizes
charged to the currently allocated ids, `used` never exceeds `capacity`,
and the allocated ids are pairwise distinct. -/
def AllocInv (a : Allocator) : Prop :=
  a.used = sumSizes a.allocated ∧ a.used ≤ a.capacity ∧
    (a.allocated.map Prod.fst).Nodup

deriving instance DecidableEq for Except

/-! ### Linked-list representation invariant for `LruMap`

`Represents m l` says the map `m` is the doubly-linked realization of the
oldest-first sequence `l`: the `oldest`/`newest` sentinels point at the two
ends, the entries of `l` are linked consecutively, and the hash map holds
exactly the keys of `l`, without duplicates. -/

/-- The key of the first element of a segment, or the given fallback. -/
def headOr {K V : Type} (l : List (K × V)) (nx : Option K) : Option K :=
  match l with
  | [] => nx
  | (k, _) :: _ => some k

/-- The key of the last element of a segment, or the given fallback. -/
def lastKey {K V : Type} : Option K → List (K × V) → Option K
  | pr, [] => pr
  | _, (k, _) :: rest => lastKey (some k) rest

/-- The entries of `l` form a doubly linked segment inside `items`:
consecutive elements point at each other, the first points back at `pr`,
the last points forward at `nx`. -/
def Seg {K V : Type} [DecidableEq K] (items : List (K × Entry K V)) :
    Option K → List (K × V) → Option K → Prop
  | _, [], _ => True
  | pr, (k, v) :: rest, nx =>
    alLookup items k = some ⟨v, headOr rest nx, pr⟩ ∧ Seg items (some k) rest nx

/-- `m` is the linked-list realization of the oldest-first sequence `l`. -/
def Represents {K V : Type} [DecidableEq K] (m : LruMap K V) (l : List (K × V)) : Prop :=
  m.oldest = headOr l none ∧
  m.newest = lastKey none l ∧
  Seg m.items none l none ∧
  List.Perm (m.items.map Prod.fst) (l.map Prod.fst) ∧
  (m.items.map Prod.fst).Nodup

/-- Repeatedly `take_oldest`, collecting the pairs returned. -/
def drain {K V : Type} [DecidableEq K] : Nat → LruMap K V → List (K × V)
  | 0, _ => []
  | Nat.succ fuel, m =>
    match m.take_oldest with
    | (none, _) => []
    | (some p, m') => p :: drain fuel m'

end SharedLru

namespace SharedLru

/-- Sanity check mirroring the source test `lru_map::tests::middle_item`. -/
example :
    let m0 : LruMap Nat Nat := LruMap.new
    let m1 := (((m0.insert 42 0).insert 43 0).insert 44 0)
    let m2 := (m1.set_newest 43).2
    let (r1, m3) := m2.take_oldest
    let (r2, m4) := m3.take_oldest
    let (r3, _) := m4.take_oldest
    r1 = some (42, 0) ∧ r2 = some (44, 0) ∧ r3 = some (43, 0) := by decide

/-- Sanity check mirroring `lru_map::tests::set_newest::oldest_item`. -/
example :
    let m0 : LruMap Nat Nat := LruMap.new
    let m1 := ((m0.insert 42 0).insert 43 0)
    let r := m1.set_newest 42
    r.1 = some () ∧ (r.2.take_oldest).1 = some (43, 0) := by decide

/-- Sanity check mirroring `lru_map::tests::set_newest::empty` and
`empty_pop_is_none`. -/
example :
    ((LruMap.new : LruMap Nat Nat).set_newest 42).1 = none ∧
    ((LruMap.new : LruMap Nat Nat).take_oldest).1 = none := by decide

/-! ### Basic lemmas about the association-list and recency-list helpers -/

theorem alLookup_alInsert_self {α β : Type} [DecidableEq α]
    (l : List (α × β)) (k : α) (v : β) : alLookup (alInsert l k v) k = some v := by
  induction l with
  | nil => simp [alInsert, alLookup]
  | cons h t ih =>
    obtain ⟨a, b⟩ := h
    by_cases hak : a = k
    · simp [alInsert, hak, alLookup]
    · simp [alInsert, hak, alLookup, ih]

theorem alLookup_alInsert_ne {α β : Type} [DecidableEq α]
    (l : List (α × β)) (k k' : α) (v : β) (hne : k ≠ k') :
    alLookup (alInsert l k v) k' = alLookup l k' := by
  induction l with
  | nil => simp [alInsert, alLookup, hne]
  | cons h t ih =>
    obtain ⟨a, b⟩ := h
    by_cases hak : a = k
    · subst hak
      simp [alInsert, alLookup, hne]
    · simp [alInsert, hak, alLookup, ih]

theorem alLookup_eq_none_iff {α β : Type} [DecidableEq α] (l : List (α × β)) (k : α) :
    alLookup l k = none ↔ ∀ p ∈ l, p.1 ≠ k := by
  induction l with
  | nil => simp [alLookup]
  | cons h t ih =>
    obtain ⟨a, b⟩ := h
    by_cases hak : a = k
    · subst hak
      simp [alLookup]
    · simp [alLookup, hak, ih]

theorem alLookup_isSome_iff_mem {α β : Type} [DecidableEq α] (l : List (α × β)) (k : α) :
    (alLookup l k).isSome = true ↔ k ∈ l.map Prod.fst := by
  induction l with
  | nil => simp [alLookup]
  | cons h t ih =>
    obtain ⟨a, b⟩ := h
    by_cases hak : a = k
    · subst hak
      simp [alLookup]
    · simp [alLookup, hak, ih, Ne.symm hak]

theorem lruPut_of_not_contains (l : List (Nat × Nat)) (id sz : Nat)
    (h : lruContains l id = false) : lruPut l id sz = l ++ [(id, sz)] := by
  have hnone : alLookup l id = none := by
    unfold lruContains alContains at h
    cases hl : alLookup l id with
    | none => rfl
    | some b => rw [hl] at h; simp at h
  have hall : ∀ p ∈ l, p.1 ≠ id := (alLookup_eq_none_iff l id).mp hnone
  unfold lruPut
  congr 1
  exact List.filter_eq_self.mpr (fun p hp => by simpa using hall p hp)

theorem sumSizes_append (l1 l2 : List (Nat × Nat)) :
    sumSizes (l1 ++ l2) = sumSizes l1 + sumSizes l2 := by
  simp [sumSizes]

theorem sumSizes_filter_add (l : List (Nat × Nat)) (id sz : Nat)
    (hl : alLookup l id = some sz) (hnd : (l.map Prod.fst).Nodup) :
    sumSizes (l.filter (fun p => p.1 ≠ id)) + sz = sumSizes l := by
  induction l with
  | nil => simp [alLookup] at hl
  | cons h t ih =>
    obtain ⟨a, b⟩ := h
    simp only [List.map_cons, List.nodup_cons] at hnd
    by_cases hak : a = id
    · subst hak
      have hb : b = sz := by simpa [alLookup] using hl
      subst hb
      have hfil : t.filter (fun p => p.1 ≠ a) = t := by
        refine List.filter_eq_self.mpr (fun p hp => ?_)
        have : p.1 ≠ a := by
          intro he
          exact hnd.1 (he ▸ List.mem_map_of_mem Prod.fst hp)
        simpa using this
      have hcons : List.filter (fun p => decide (p.1 ≠ a)) ((a, b) :: t) = t := by
        rw [List.filter_cons]
        simpa using hfil
      rw [show (fun p : Nat × Nat => decide (p.1 ≠ a)) = (fun p : Nat × Nat => p.1 ≠ a) from rfl] at hcons
      rw [hcons]
      simp [sumSizes]
      omega
    · simp only [alLookup, if_neg hak] at hl
      have := ih hl hnd.2
      simp only [List.filter_cons]
      have hcond : (decide (a ≠ id)) = true := by simpa using hak
      simp only [hcond, if_pos]
      simp only [sumSizes, List.map_cons, List.sum_cons] at this ⊢
      omega

theorem keys_filter_nodup (l : List (Nat × Nat)) (id : Nat)
    (hnd : (l.map Prod.fst).Nodup) :
    ((l.filter (fun p => p.1 ≠ id)).map Prod.fst).Nodup :=
  List.Nodup.sublist (List.Sublist.map Prod.fst (List.filter_sublist l)) hnd

theorem keys_lruPut_nodup (l : List (Nat × Nat)) (id sz : Nat)
    (hnd : (l.map Prod.fst).Nodup) :
    ((lruPut l id sz).map Prod.fst).Nodup := by
  unfold lruPut
  rw [List.map_append]
  refine List.Nodup.append (keys_filter_nodup l id hnd) (List.nodup_singleton id) ?_
  intro a ha hb
  simp only [List.map_cons, List.map_nil, List.mem_singleton] at hb
  subst hb
  obtain ⟨p, hp, hpa⟩ := List.mem_map.mp ha
  have := List.of_mem_filter hp
  simp [hpa] at this

theorem sumSizes_lruPromote (l : List (Nat × Nat)) (id : Nat)
    (hnd : (l.map Prod.fst).Nodup) :
    sumSizes (lruPromote l id) = sumSizes l := by
  unfold lruPromote
  cases hl : alLookup l id with
  | none => rfl
  | some sz =>
    rw [sumSizes_append]
    have := sumSizes_filter_add l id sz hl hnd
    simp [sumSizes] at this ⊢
    omega

theorem keys_lruPromote_nodup (l : List (Nat × Nat)) (id : Nat)
    (hnd : (l.map Prod.fst).Nodup) :
    ((lruPromote l id).map Prod.fst).Nodup := by
  unfold lruPromote
  cases hl : alLookup l id with
  | none => exact hnd
  | some sz =>
    rw [List.map_append]
    refine List.Nodup.append (keys_filter_nodup l id hnd) (List.nodup_singleton id) ?_
    intro a ha hb
    simp only [List.map_cons, List.map_nil, List.mem_singleton] at hb
    subst hb
    obtain ⟨p, hp, hpa⟩ := List.mem_map.mp ha
    have := List.of_mem_filter hp
    simp [hpa] at this

theorem get_id_spec (rng : List Nat) (alloc : List (Nat × Nat)) (id : Nat)
    (rng' : List Nat) (h : Allocator.get_id rng alloc = some (id, rng')) :
    id ≠ 0 ∧ lruContains alloc id = false := by
  induction rng with
  | nil => simp [Allocator.get_id] at h
  | cons r rest ih =>
    unfold Allocator.get_id at h
    by_cases hc : r ≠ 0 ∧ ¬ (lruContains alloc r = true)
    · rw [if_pos hc] at h
      obtain ⟨h1, h2⟩ := Option.some.injEq _ _ ▸ h
      cases h
      exact ⟨hc.1, by simpa using hc.2⟩
    · rw [if_neg hc] at h
      exact ih h

theorem ev_flag_false_fits (a : Allocator) (bytes : Nat)
    (h : Allocator.ev_flag a bytes = false) : a.used + bytes ≤ a.capacity := by
  unfold Allocator.ev_flag at h
  by_cases h1 : a.used + bytes > a.capacity
  · rw [if_pos h1] at h
    exact absurd h (by simp)
  · omega

theorem try_alloc_inv (a : Allocator) (bytes : Nat) (r : AllocResult)
    (a' : Allocator) (hinv : AllocInv a) (h : a.try_alloc bytes = .ok (r, a')) :
    AllocInv a' := by
  obtain ⟨hsum, hle, hnd⟩ := hinv
  unfold Allocator.try_alloc at h
  by_cases h1 : bytes > a.capacity
  · rw [if_pos h1] at h
    simp only [Except.ok.injEq, Prod.mk.injEq] at h
    obtain ⟨-, h3⟩ := h
    subst h3
    exact ⟨hsum, hle, hnd⟩
  · rw [if_neg h1] at h
    simp only [] at h
    by_cases hev : Allocator.ev_flag a bytes = true
    · rw [if_pos hev] at h
      cases halloc : a.allocated with
      | nil =>
        rw [halloc] at h
        simp [lruPop] at h
      | cons p rest =>
        obtain ⟨i, sz⟩ := p
        rw [halloc] at h
        simp only [lruPop, Except.ok.injEq, Prod.mk.injEq] at h
        obtain ⟨-, h3⟩ := h
        subst h3
        rw [halloc] at hsum hnd
        simp only [sumSizes, List.map_cons, List.sum_cons] at hsum
        refine ⟨?_, ?_, ?_⟩
        · simp only [sumSizes]
          omega
        · simp only
          omega
        · simpa using (List.nodup_cons.mp (by simpa using hnd)).2
    · rw [if_neg hev] at h
      rw [Bool.not_eq_true] at hev
      cases hid : Allocator.get_id a.rng a.allocated with
      | none =>
        rw [hid] at h
        simp at h
      | some p =>
        obtain ⟨id', rng'⟩ := p
        rw [hid] at h
        simp only [Except.ok.injEq, Prod.mk.injEq] at h
        obtain ⟨-, h3⟩ := h
        subst h3
        obtain ⟨-, hfresh⟩ := get_id_spec _ _ _ _ hid
        have hput := lruPut_of_not_contains a.allocated id' bytes hfresh
        have hfits := ev_flag_false_fits a bytes hev
        refine ⟨?_, ?_, ?_⟩
        · simp only [hput, sumSizes_append, sumSizes]
          simp [sumSizes] at hsum
          simp [hsum]
        · simpa using hfits
        · simpa using keys_lruPut_nodup a.allocated id' bytes hnd

theorem set_newest_inv (a : Allocator) (id : Nat) (hinv : AllocInv a) :
    AllocInv (a.set_newest id) := by
  obtain ⟨hsum, hle, hnd⟩ := hinv
  unfold Allocator.set_newest
  exact ⟨by simpa [sumSizes_lruPromote a.allocated id hnd] using hsum, hle,
    keys_lruPromote_nodup a.allocated id hnd⟩

theorem new_inv (c : Nat) (rng0 : List Nat) : AllocInv (Allocator.new c rng0) := by
  exact ⟨rfl, Nat.zero_le _, List.nodup_nil⟩

theorem try_alloc_capacity (a : Allocator) (bytes : Nat) (r : AllocResult)
    (a' : Allocator) (h : a.try_alloc bytes = .ok (r, a')) :
    a'.capacity = a.capacity := by
  unfold Allocator.try_alloc at h
  by_cases h1 : bytes > a.capacity
  · rw [if_pos h1] at h
    simp only [Except.ok.injEq, Prod.mk.injEq] at h
    obtain ⟨-, h2⟩ := h
    rw [← h2]
  · rw [if_neg h1] at h
    simp only [] at h
    by_cases hev : Allocator.ev_flag a bytes = true
    · rw [if_pos hev] at h
      cases hp : lruPop a.allocated with
      | none => rw [hp] at h; simp at h
      | some q =>
        obtain ⟨⟨i, sz⟩, rest⟩ := q
        rw [hp] at h
        simp only [Except.ok.injEq, Prod.mk.injEq] at h
        obtain ⟨-, h2⟩ := h
        rw [← h2]
    · rw [if_neg hev] at h
      cases hg : Allocator.get_id a.rng a.allocated with
      | none => rw [hg] at h; simp at h
      | some q =>
        obtain ⟨id', rng'⟩ := q
        rw [hg] at h
        simp only [Except.ok.injEq, Prod.mk.injEq] at h
        obtain ⟨-, h2⟩ := h
        rw [← h2]

theorem try_alloc_tooLarge_elim (a : Allocator) (bytes : Nat) (a' : Allocator)
    (h : a.try_alloc bytes = .ok (.tooLarge, a')) : bytes > a.capacity ∧ a' = a := by
  unfold Allocator.try_alloc at h
  by_cases h1 : bytes > a.capacity
  · rw [if_pos h1] at h
    simp only [Except.ok.injEq, Prod.mk.injEq] at h
    exact ⟨h1, h.2.symm⟩
  · exfalso
    rw [if_neg h1] at h
    simp only [] at h
    by_cases hev : Allocator.ev_flag a bytes = true
    · rw [if_pos hev] at h
      cases hp : lruPop a.allocated with
      | none => rw [hp] at h; simp at h
      | some q =>
        obtain ⟨⟨i, sz⟩, rest⟩ := q
        rw [hp] at h
        simp at h
    · rw [if_neg hev] at h
      cases hg : Allocator.get_id a.rng a.allocated with
      | none => rw [hg] at h; simp at h
      | some q =>
        obtain ⟨id', rng'⟩ := q
        rw [hg] at h
        simp at h

theorem evict_allocator {K V : Type} [DecidableEq K] (inner : InnerShared)
    (em : EntryMap K V) (id : Nat) (inner' : InnerShared) (em' : EntryMap K V)
    (h : InnerShared.evict inner em id = .ok (inner', em')) :
    inner'.allocator = inner.allocator := by
  unfold InnerShared.evict at h
  by_cases hc : inner.entry_holders.contains id = true
  · rw [if_pos hc] at h
    simp only [Except.ok.injEq, Prod.mk.injEq] at h
    obtain ⟨h1, -⟩ := h
    rw [← h1]
  · rw [if_neg hc] at h
    simp at h

theorem claim_none_gt {K V : Type} [DecidableEq K] (fuel : Nat) :
    ∀ (inner : InnerShared) (em : EntryMap K V) (bytes : Nat)
      (inner' : InnerShared) (em' : EntryMap K V),
    InnerShared.claim fuel inner em bytes = .ok (none, inner', em') →
    bytes > inner.allocator.capacity := by
  induction fuel with
  | zero =>
    intro inner em bytes inner' em' h
    simp [InnerShared.claim] at h
  | succ fuel ih =>
    intro inner em bytes inner' em' h
    unfold InnerShared.claim at h
    cases hta : inner.allocator.try_alloc bytes with
    | error e => rw [hta] at h; simp at h
    | ok p =>
      obtain ⟨r, a'⟩ := p
      rw [hta] at h
      cases r with
      | success id => simp at h
      | evict id =>
        simp only [] at h
        cases hev : InnerShared.evict { inner with allocator := a' } em id with
        | error e => rw [hev] at h; simp at h
        | ok q =>
          obtain ⟨inner1, em1⟩ := q
          rw [hev] at h
          have hcap := try_alloc_capacity _ _ _ _ hta
          have hall := evict_allocator _ _ _ _ _ hev
          have hgt := ih inner1 em1 bytes inner' em' h
          rw [hall] at hgt
          simp only [] at hgt
          omega
      | tooLarge =>
        exact (try_alloc_tooLarge_elim _ _ _ hta).1

/-! ### Claims about the allocator -/

/-- **C1 (amended)**: in every allocator state where `used + bytes` exceeds
`capacity`, the request itself fits the budget (`bytes ≤ capacity`), and at
least one id is allocated, `try_alloc` reports `Evict` of the globally
least-recently-used id, and `used` decreases by exactly the size charged to
that id. -/
theorem claim1_evicts_oldest (a : Allocator) (bytes id sz : Nat)
    (rest : List (Nat × Nat))
    (halloc : a.allocated = (id, sz) :: rest)
    (hover : a.used + bytes > a.capacity)
    (hbytes : bytes ≤ a.capacity)
    (hsum : a.used = sumSizes a.allocated) :
    a.try_alloc bytes =
      .ok (.evict id, { a with evicting := true, allocated := rest, used := a.used - sz }) ∧
    a.used - sz + sz = a.used := by
  have hev : Allocator.ev_flag a bytes = true := by
    unfold Allocator.ev_flag
    rw [if_pos hover]
  constructor
  · unfold Allocator.try_alloc
    rw [if_neg (by omega : ¬ bytes > a.capacity)]
    simp only [hev, halloc, lruPop, if_pos]
  · rw [halloc] at hsum
    simp only [sumSizes, List.map_cons, List.sum_cons] at hsum
    omega

/-- Witness for C1: capacity 10, one id of size 4 allocated (reached by a
real run), request of 7 bytes evicts it and returns `used` to 0. -/
theorem claim1_evicts_oldest_witness :
    runAllocs (Allocator.new 10 [5]) [4] =
      .ok ([.success 5], ⟨4, 10, false, [], [(5, 4)]⟩) ∧
    (⟨4, 10, false, [], [(5, 4)]⟩ : Allocator).try_alloc 7 =
      .ok (.evict 5, ⟨0, 10, true, [], []⟩) ∧
    (4 : Nat) - 4 + 4 = 4 := by
  refine ⟨by decide, ?_⟩
  have := claim1_evicts_oldest ⟨4, 10, false, [], [(5, 4)]⟩ 7 5 4 []
    rfl (by decide) (by decide) (by decide)
  exact this

/-- Counterexample to C1 as stated: in a reachable state with `used = 4`,
`capacity = 10` and one allocated id, the request `bytes = 11` satisfies
`used + bytes > capacity` with an id available to evict, yet `try_alloc`
reports `TooLarge` (because `bytes > capacity` is checked first) and `used`
does not decrease. -/
theorem claim1_counterexample :
    runAllocs (Allocator.new 10 [5]) [4] =
      .ok ([.success 5], ⟨4, 10, false, [], [(5, 4)]⟩) ∧
    4 + 11 > 10 ∧
    ((⟨4, 10, false, [], [(5, 4)]⟩ : Allocator).allocated ≠ []) ∧
    (⟨4, 10, false, [], [(5, 4)]⟩ : Allocator).try_alloc 11 =
      .ok (.tooLarge, ⟨4, 10, false, [], [(5, 4)]⟩) := by decide

/-- **C2**: the allocator invariant — `used` equals the sum of the sizes
charged to the present ids and `used ≤ capacity` — holds of a fresh
allocator and is preserved by every `try_alloc` that returns (in
particular it holds when a `Success` result is returned) and by every
`set_newest`. -/
theorem claim2_invariant (c : Nat) (rng0 : List Nat) (a : Allocator)
    (bytes id : Nat) (r : AllocResult) (a' : Allocator)
    (hinv : AllocInv a) (h : a.try_alloc bytes = .ok (r, a')) :
    AllocInv (Allocator.new c rng0) ∧ AllocInv a' ∧ AllocInv (a.set_newest id) :=
  ⟨new_inv c rng0, try_alloc_inv a bytes r a' hinv h, set_newest_inv a id hinv⟩

/-- Witness for C2 at a concrete successful allocation. -/
theorem claim2_invariant_witness :
    AllocInv (Allocator.new 5 []) ∧ AllocInv ⟨3, 10, false, [], [(1, 3)]⟩ ∧
      AllocInv ((Allocator.new 10 [1]).set_newest 2) :=
  claim2_invariant 5 [] (Allocator.new 10 [1]) 3 2 (.success 1)
    ⟨3, 10, false, [], [(1, 3)]⟩ ⟨rfl, by decide, List.nodup_nil⟩ (by decide)

/-- **C3 (amended)**: when `used + bytes` fits within `capacity` and the
allocator is not stuck in eviction mode (its `evicting` flag is clear, or
usage is below 7/8 of capacity so the flag is cleared), `try_alloc`
generates a fresh, unique, non-zero id (skipping draws that are zero or
collide), records it as most recent with charged size `bytes`, adds `bytes`
to `used`, and reports `Success` of that id. -/
theorem claim3_success (a : Allocator) (bytes id : Nat) (rng' : List Nat)
    (hfit : a.used + bytes ≤ a.capacity)
    (hnotev : a.evicting = false ∨ a.used < a.capacity / 8 * 7)
    (hid : Allocator.get_id a.rng a.allocated = some (id, rng')) :
    a.try_alloc bytes =
      .ok (.success id,
        { a with evicting := false, rng := rng',
                 allocated := a.allocated ++ [(id, bytes)],
                 used := a.used + bytes }) ∧
    id ≠ 0 ∧ lruContains a.allocated id = false := by
  obtain ⟨hnz, hfresh⟩ := get_id_spec a.rng a.allocated id rng' hid
  have hev : Allocator.ev_flag a bytes = false := by
    unfold Allocator.ev_flag
    rw [if_neg (by omega : ¬ a.used + bytes > a.capacity)]
    rcases hnotev with hf | hlt
    · by_cases hlt' : a.used < a.capacity / 8 * 7
      · rw [if_pos hlt']
      · rw [if_neg hlt']
        exact hf
    · rw [if_pos hlt]
  refine ⟨?_, hnz, hfresh⟩
  unfold Allocator.try_alloc
  rw [if_neg (by omega : ¬ bytes > a.capacity)]
  simp only [hev, Bool.false_eq_true, if_false, hid]
  rw [lruPut_of_not_contains a.allocated id bytes hfresh]

/-- Witness for C3: a fresh allocator whose first random draw is zero; the
generator skips it and allocates under the second draw. -/
theorem claim3_success_witness :
    (Allocator.new 10 [0, 7]).try_alloc 3 =
      .ok (.success 7, ⟨3, 10, false, [], [(7, 3)]⟩) ∧
    (7 : Nat) ≠ 0 ∧ lruContains [] 7 = false := by
  have := claim3_success (Allocator.new 10 [0, 7]) 3 7 []
    (by decide) (Or.inl rfl) (by decide)
  exact this

/-- Counterexample to C3 as stated: a reachable state (`capacity = 16`,
insertions of 1 and 14 bytes, then an over-budget request that evicted the
1-byte entry) where `used + bytes = 16 ≤ capacity` yet the next `try_alloc`
reports `Evict`, not `Success`, because the `evicting` flag is still set
and `used = 14` has not dropped below `capacity / 8 * 7 = 14`. -/
theorem claim3_counterexample :
    runAllocs (Allocator.new 16 [1, 2, 3]) [1, 14, 2] =
      .ok ([.success 1, .success 2, .evict 1], ⟨14, 16, true, [3], [(2, 14)]⟩) ∧
    14 + 2 ≤ 16 ∧
    (⟨14, 16, true, [3], [(2, 14)]⟩ : Allocator).try_alloc 2 =
      .ok (.evict 2, ⟨0, 16, true, [3], []⟩) := by decide

/-- **C4 (amended)**: `try_alloc` reports `TooLarge` exactly when the single
request alone exceeds the whole budget (`bytes > capacity`, checked before
anything else); in that case `claim` returns `None` with the allocator, the
registry and the store unchanged, the pair is not stored, and a get on a
key that was absent misses. -/
theorem claim4_toolarge {K V : Type} [DecidableEq K] (bytesK : K → Nat)
    (bytesV : V → Nat) (fuel : Nat) (inner : InnerShared) (em : EntryMap K V)
    (k : K) (v : V) (a : Allocator) (bytes : Nat)
    (hbig : bytesK k + bytesV v > inner.allocator.capacity) :
    (bytes > a.capacity → a.try_alloc bytes = .ok (.tooLarge, a)) ∧
    (∀ r a', a.try_alloc bytes = .ok (r, a') → (r = .tooLarge ↔ bytes > a.capacity)) ∧
    cache_insert bytesK bytesV (fuel + 1) inner em k v = .ok (inner, em) ∧
    (em.get_id k = none → (cache_get inner em k).1 = none) := by
  have htl : ∀ b : Nat, b > a.capacity → a.try_alloc b = .ok (.tooLarge, a) := by
    intro b hb
    unfold Allocator.try_alloc
    rw [if_pos hb]
  refine ⟨htl bytes, ?_, ?_, ?_⟩
  · intro r a' h
    constructor
    · intro hr
      subst hr
      by_contra hnb
      unfold Allocator.try_alloc at h
      rw [if_neg hnb] at h
      simp only [] at h
      by_cases hev : Allocator.ev_flag a bytes = true
      · rw [if_pos hev] at h
        cases hp : lruPop a.allocated with
        | none => rw [hp] at h; simp at h
        | some q => rw [hp] at h; simp at h
      · rw [if_neg hev] at h
        cases hg : Allocator.get_id a.rng a.allocated with
        | none => rw [hg] at h; simp at h
        | some q => rw [hg] at h; simp at h
    · intro hb
      have := htl bytes hb
      rw [this] at h
      simp only [Except.ok.injEq, Prod.mk.injEq] at h
      exact h.1.symm
  · have hc : inner.allocator.try_alloc (bytesK k + bytesV v) =
        .ok (.tooLarge, inner.allocator) := by
      unfold Allocator.try_alloc
      rw [if_pos hbig]
    unfold cache_insert InnerShared.claim
    rw [hc]
  · intro hmiss
    unfold cache_get
    rw [hmiss]

/-- Witness for C4: a 5-byte budget, key and value of 3 and 4 bytes. -/
theorem claim4_toolarge_witness :
    ((6 : Nat) > 5 → (⟨0, 5, false, [], []⟩ : Allocator).try_alloc 6 =
      .ok (.tooLarge, ⟨0, 5, false, [], []⟩)) ∧
    (∀ r a', (⟨0, 5, false, [], []⟩ : Allocator).try_alloc 6 = .ok (r, a') →
      (r = .tooLarge ↔ (6 : Nat) > 5)) ∧
    cache_insert (fun n : Nat => n) (fun n : Nat => n) 1 ⟨Allocator.new 5 [], []⟩
      (EntryMap.empty : EntryMap Nat Nat) 3 4 = .ok (⟨Allocator.new 5 [], []⟩, EntryMap.empty) ∧
    ((EntryMap.empty : EntryMap Nat Nat).get_id 3 = none →
      (cache_get ⟨Allocator.new 5 [], []⟩ (EntryMap.empty : EntryMap Nat Nat) 3).1 = none) :=
  claim4_toolarge (fun n : Nat => n) (fun n : Nat => n) 0 ⟨Allocator.new 5 [], []⟩
    (EntryMap.empty : EntryMap Nat Nat) 3 4 ⟨0, 5, false, [], []⟩ 6 (by decide)

/-- Counterexample to C4 as stated: `try_alloc` reports `TooLarge` in a
reachable state that still has an allocated id left to evict, so "no
allocated id left" is not necessary for `TooLarge`. -/
theorem claim4_counterexample :
    runAllocs (Allocator.new 10 [5]) [4, 11] =
      .ok ([.success 5, .tooLarge], ⟨4, 10, false, [], [(5, 4)]⟩) ∧
    ((⟨4, 10, false, [], [(5, 4)]⟩ : Allocator).allocated ≠ []) := by decide

/-- **C9 (amended)**: once the allocator is in the evicting state, every
`try_alloc` whose request fits the budget (`bytes ≤ capacity`) keeps
reporting `Evict` while `used` has not fallen below `capacity / 8 * 7` and
an allocated id remains — even when `used + bytes ≤ capacity`; and as soon
as `used < capacity / 8 * 7` (and the request fits), an allocation reports
`Success` again. Requests with `bytes > capacity` report `TooLarge` even in
the evicting state. -/
theorem claim9_hysteresis (a : Allocator) (bytes id sz : Nat)
    (rest : List (Nat × Nat)) (rng' : List Nat) :
    (a.evicting = true → bytes ≤ a.capacity → a.capacity / 8 * 7 ≤ a.used →
      a.allocated = (id, sz) :: rest →
      a.try_alloc bytes =
        .ok (.evict id, { a with evicting := true, allocated := rest, used := a.used - sz })) ∧
    (a.used < a.capacity / 8 * 7 → a.used + bytes ≤ a.capacity →
      Allocator.get_id a.rng a.allocated = some (id, rng') →
      a.try_alloc bytes =
        .ok (.success id,
          { a with evicting := false, rng := rng',
                   allocated := lruPut a.allocated id bytes,
                   used := a.used + bytes })) := by
  constructor
  · intro hev hbytes hhigh halloc
    have hflag : Allocator.ev_flag a bytes = true := by
      unfold Allocator.ev_flag
      by_cases hover : a.used + bytes > a.capacity
      · rw [if_pos hover]
      · rw [if_neg hover, if_neg (by omega : ¬ a.used < a.capacity / 8 * 7)]
        exact hev
    unfold Allocator.try_alloc
    rw [if_neg (by omega : ¬ bytes > a.capacity)]
    simp only [hflag, halloc, lruPop, if_pos]
  · intro hlow hfit hid
    have hflag : Allocator.ev_flag a bytes = false := by
      unfold Allocator.ev_flag
      rw [if_neg (by omega : ¬ a.used + bytes > a.capacity), if_pos hlow]
    unfold Allocator.try_alloc
    rw [if_neg (by omega : ¬ bytes > a.capacity)]
    simp only [hflag, Bool.false_eq_true, if_false, hid]

/-- Witness for C9: the sticky eviction at `used = 14 ≥ 16/8*7` on a 2-byte
request that would fit, and the recovery to `Success` once `used = 0`. -/
theorem claim9_hysteresis_witness :
    (⟨14, 16, true, [3], [(2, 14)]⟩ : Allocator).try_alloc 2 =
      .ok (.evict 2, ⟨0, 16, true, [3], []⟩) ∧
    (⟨0, 16, true, [3], []⟩ : Allocator).try_alloc 2 =
      .ok (.success 3, ⟨2, 16, false, [], [(3, 2)]⟩) := by
  constructor
  · exact (claim9_hysteresis ⟨14, 16, true, [3], [(2, 14)]⟩ 2 2 14 [] []).1
      rfl (by decide) (by decide) rfl
  · exact (claim9_hysteresis ⟨0, 16, true, [3], []⟩ 2 3 0 [] []).2
      (by decide) (by decide) (by decide)

/-- Counterexample to C9 as stated: in a reachable evicting state a request
with `bytes > capacity` reports `TooLarge`, not `Evict`. -/
theorem claim9_counterexample :
    runAllocs (Allocator.new 16 [1, 2, 3]) [1, 14, 2] =
      .ok ([.success 1, .success 2, .evict 1], ⟨14, 16, true, [3], [(2, 14)]⟩) ∧
    (⟨14, 16, true, [3], [(2, 14)]⟩ : Allocator).evicting = true ∧
    (⟨14, 16, true, [3], [(2, 14)]⟩ : Allocator).try_alloc 17 =
      .ok (.tooLarge, ⟨14, 16, true, [3], [(2, 14)]⟩) := by decide

/-- **C5**: whenever `insert(k, v)` completes (its claim loop returned) and
the pair's cost fits the budget, an immediately following `get(k)` on the
resulting state returns `v` — regardless of which other entries the insert
evicted along the way. -/
theorem claim5_round_trip {K V : Type} [DecidableEq K] (bytesK : K → Nat)
    (bytesV : V → Nat) (fuel : Nat) (inner inner' : InnerShared)
    (em em' : EntryMap K V) (k : K) (v : V)
    (hfit : bytesK k + bytesV v ≤ inner.allocator.capacity)
    (h : cache_insert bytesK bytesV fuel inner em k v = .ok (inner', em')) :
    (cache_get inner' em' k).1 = some v := by
  unfold cache_insert at h
  cases hc : InnerShared.claim fuel inner em (bytesK k + bytesV v) with
  | error e => rw [hc] at h; simp at h
  | ok p =>
    obtain ⟨o, inner1, em1⟩ := p
    rw [hc] at h
    cases o with
    | none =>
      have := claim_none_gt fuel inner em _ inner1 em1 hc
      omega
    | some id =>
      simp only [Except.ok.injEq, Prod.mk.injEq] at h
      obtain ⟨h1, h2⟩ := h
      subst h1
      subst h2
      have hgid : (em1.insert id k v).get_id k = some id := by
        unfold EntryMap.get_id EntryMap.insert
        exact alLookup_alInsert_self _ _ _
      have hv : (em1.insert id k v).get k = some v := by
        unfold EntryMap.get EntryMap.insert
        simp only [alLookup_alInsert_self]
      unfold cache_get
      rw [hgid]
      simp only [hv]

/-- Witness for C5 at a concrete run: capacity 10, cost 2, key 3, value 4. -/
theorem claim5_round_trip_witness :
    (cache_get ⟨⟨2, 10, false, [], [(1, 2)]⟩, [1]⟩
      (⟨[(1, 4)], [(3, 1)], [(1, 3)]⟩ : EntryMap Nat Nat) 3).1 = some 4 :=
  claim5_round_trip (fun _ : Nat => 1) (fun _ : Nat => 1) 1 ⟨Allocator.new 10 [1], []⟩
    ⟨⟨2, 10, false, [], [(1, 2)]⟩, [1]⟩ (EntryMap.empty : EntryMap Nat Nat)
    (⟨[(1, 4)], [(3, 1)], [(1, 3)]⟩ : EntryMap Nat Nat) 3 4 (by decide) (by decide)

/-- **C6 is false of the code**: inserting a second value under the same key
leaves the prior id's mappings in the store. After `insert(10, 100)` (id 1)
and `insert(10, 200)` (id 2) the store still has `values[1] = 100` and
`id_keys[1] = 10`: two ids correspond to key 10, where the claim (and the
spec's required correctness property) demand the prior id's entries be
removed. -/
theorem claim6_stale_mappings :
    cache_insert (fun _ : Nat => 1) (fun _ : Nat => 1) 1 ⟨Allocator.new 100 [1, 2], []⟩
        (EntryMap.empty : EntryMap Nat Nat) 10 100 =
      .ok (⟨⟨2, 100, false, [2], [(1, 2)]⟩, [1]⟩, ⟨[(1, 100)], [(10, 1)], [(1, 10)]⟩) ∧
    cache_insert (fun _ : Nat => 1) (fun _ : Nat => 1) 1 ⟨⟨2, 100, false, [2], [(1, 2)]⟩, [1]⟩
        (⟨[(1, 100)], [(10, 1)], [(1, 10)]⟩ : EntryMap Nat Nat) 10 200 =
      .ok (⟨⟨4, 100, false, [], [(1, 2), (2, 2)]⟩, [1, 2]⟩,
        ⟨[(1, 100), (2, 200)], [(10, 2)], [(1, 10), (2, 10)]⟩) ∧
    alLookup ([(1, 100), (2, 200)] : List (Nat × Nat)) 1 = some 100 ∧
    ([(1, 10), (2, 10)] : List (Nat × Nat)).filter (fun p => p.2 = 10) =
      [(1, 10), (2, 10)] := by decide

theorem headOr_append {K V : Type} (l1 l2 : List (K × V)) (nx : Option K) :
    headOr (l1 ++ l2) nx = headOr l1 (headOr l2 nx) := by
  cases l1 with
  | nil => rfl
  | cons p t => obtain ⟨a, b⟩ := p; rfl

theorem lastKey_append {K V : Type} (pr : Option K) (l1 l2 : List (K × V)) :
    lastKey pr (l1 ++ l2) = lastKey (lastKey pr l1) l2 := by
  induction l1 generalizing pr with
  | nil => rfl
  | cons p t ih =>
    obtain ⟨a, b⟩ := p
    simp only [List.cons_append, lastKey, List.append_eq, ih]

theorem lastKey_cons_irrel {K V : Type} (pr pr' : Option K) (p : K × V)
    (t : List (K × V)) : lastKey pr (p :: t) = lastKey pr' (p :: t) := by
  obtain ⟨a, b⟩ := p; rfl

theorem lastKey_concat {K V : Type} (pr : Option K) (l : List (K × V)) (n : K)
    (nv : V) : lastKey pr (l ++ [(n, nv)]) = some n := by
  rw [lastKey_append]; rfl

theorem lastKey_mem {K V : Type} (l : List (K × V)) (n : K)
    (h : lastKey none l = some n) : n ∈ l.map Prod.fst := by
  induction l using List.reverseRecOn with
  | nil => simp [lastKey] at h
  | append_singleton t p ih =>
    obtain ⟨a, b⟩ := p
    rw [lastKey_concat] at h
    cases h
    simp

theorem seg_append_iff {K V : Type} [DecidableEq K] (items : List (K × Entry K V))
    (l1 l2 : List (K × V)) : ∀ (pr nx : Option K),
    Seg items pr (l1 ++ l2) nx ↔
      Seg items pr l1 (headOr l2 nx) ∧ Seg items (lastKey pr l1) l2 nx := by
  induction l1 with
  | nil => intro pr nx; simp [Seg, lastKey]
  | cons p t ih =>
    intro pr nx
    obtain ⟨a, b⟩ := p
    simp only [List.cons_append, Seg, lastKey, headOr_append, List.append_eq, ih, and_assoc]

theorem seg_congr {K V : Type} [DecidableEq K]
    (items items' : List (K × Entry K V)) (l : List (K × V)) : ∀ (pr nx : Option K),
    (∀ a, a ∈ l.map Prod.fst → alLookup items' a = alLookup items a) →
    Seg items pr l nx → Seg items' pr l nx := by
  induction l with
  | nil => intro pr nx _ _; trivial
  | cons p t ih =>
    intro pr nx hsame hseg
    obtain ⟨a, b⟩ := p
    obtain ⟨hl, hs⟩ := hseg
    refine ⟨?_, ih (some a) nx (fun x hx => hsame x (by simp [hx])) hs⟩
    rw [hsame a (by simp)]
    exact hl

theorem alInsert_keys_of_mem {α β : Type} [DecidableEq α] (l : List (α × β))
    (k : α) (v : β) (h : k ∈ l.map Prod.fst) :
    (alInsert l k v).map Prod.fst = l.map Prod.fst := by
  induction l with
  | nil => simp at h
  | cons p t ih =>
    obtain ⟨a, b⟩ := p
    by_cases hak : a = k
    · subst hak
      simp [alInsert]
    · simp only [List.map_cons, List.mem_cons] at h
      rcases h with h | h

      · exact absurd h.symm hak
      · simp [alInsert, hak, ih h]

theorem alRemove_fst {α β : Type} [DecidableEq α] (l : List (α × β)) (k : α) :
    (alRemove l k).1 = alLookup l k := by
  induction l with
  | nil => rfl
  | cons p t ih =>
    obtain ⟨a, b⟩ := p
    by_cases hak : a = k
    · simp [alRemove, alLookup, hak]
    · simp [alRemove, alLookup, hak, ih]

theorem alRemove_snd_lookup_ne {α β : Type} [DecidableEq α] (l : List (α × β))
    (k a : α) (hne : a ≠ k) : alLookup (alRemove l k).2 a = alLookup l a := by
  induction l with
  | nil => rfl
  | cons p t ih =>
    obtain ⟨x, y⟩ := p
    by_cases hxk : x = k
    · subst hxk
      simp [alRemove, alLookup, Ne.symm hne]
    · simp [alRemove, alLookup, hxk, ih]

theorem alRemove_keys {α β : Type} [DecidableEq α] (l : List (α × β)) (k : α) :
    ((alRemove l k).2).map Prod.fst = (l.map Prod.fst).erase k := by
  induction l with
  | nil => rfl
  | cons p t ih =>
    obtain ⟨x, y⟩ := p
    by_cases hxk : x = k
    · subst hxk
      simp [alRemove, List.erase_cons_head]
    · simp only [alRemove, if_neg hxk]
      simp only [List.map_cons]
      rw [List.erase_cons_tail]
      · rw [ih]
      · simp [hxk]

theorem alRemove_snd_lookup_self {α β : Type} [DecidableEq α] (l : List (α × β))
    (k : α) (hnd : (l.map Prod.fst).Nodup) : alLookup (alRemove l k).2 k = none := by
  rw [alLookup_eq_none_iff]
  intro p hp hpk
  have hmem : k ∈ ((alRemove l k).2).map Prod.fst := by
    rw [List.mem_map]
    exact ⟨p, hp, hpk⟩
  rw [alRemove_keys] at hmem
  exact (List.Nodup.not_mem_erase hnd) hmem

theorem headOr_irrel {K V : Type} (l : List (K × V)) (x y : Option K)
    (h : l ≠ []) : headOr l x = headOr l y := by
  cases l with
  | nil => exact absurd rfl h
  | cons p t => obtain ⟨a, b⟩ := p; rfl

theorem headOr_concat_ne_none {K V : Type} (l : List (K × V)) (p : K × V) :
    headOr (l ++ [p]) none ≠ none := by
  cases l with
  | nil => obtain ⟨a, b⟩ := p; simp [headOr]
  | cons q t => obtain ⟨a, b⟩ := q; simp [headOr]

/-- Effect of `remove_entry` on a represented map: it succeeds, unlinks the
key (updating sentinels and neighbour links so that the remaining sequence
is correctly chained), and keeps the key set of the hash map unchanged —
the removed key's own entry, with its value, is still present but stale. -/
theorem remove_entry_spec {K V : Type} [DecidableEq K] (m : LruMap K V)
    (l1 l2 : List (K × V)) (k : K) (v : V)
    (hrep : Represents m (l1 ++ (k, v) :: l2)) :
    ∃ m1 : LruMap K V,
      m.remove_entry k = (some (), m1) ∧
      m1.oldest = headOr (l1 ++ l2) none ∧
      m1.newest = lastKey none (l1 ++ l2) ∧
      Seg m1.items none (l1 ++ l2) none ∧
      m1.items.map Prod.fst = m.items.map Prod.fst ∧
      (∃ e : Entry K V, alLookup m1.items k = some e ∧ e.value = v) := by
  obtain ⟨hold, hnew, hseg, hperm, hnd⟩ := hrep
  have hlnd : ((l1 ++ (k, v) :: l2).map Prod.fst).Nodup := hperm.nodup hnd
  rw [List.map_append, List.map_cons, List.nodup_append] at hlnd
  obtain ⟨hnd1, hnd2, hdisj⟩ := hlnd
  rw [List.nodup_cons] at hnd2
  obtain ⟨hkl2, hnd2⟩ := hnd2
  rw [seg_append_iff] at hseg
  obtain ⟨hseg1, hseg2⟩ := hseg
  rw [(rfl : headOr ((k, v) :: l2) none = some k)] at hseg1
  obtain ⟨hk, hseg3⟩ := hseg2
  rcases List.eq_nil_or_concat l1 with h1 | ⟨l1', q, h1⟩
  · -- the removed key is the oldest entry
    subst h1
    simp only [List.nil_append] at hk hseg1 hseg3 hold hnew ⊢
    have hk' : alLookup m.items k = some ⟨v, headOr l2 none, none⟩ := hk
    cases hl2 : l2 with
    | nil =>
      subst hl2
      refine ⟨⟨m.items, none, none⟩, ?_, rfl, rfl, trivial, rfl,
        ⟨⟨v, none, none⟩, hk', rfl⟩⟩
      unfold LruMap.remove_entry
      rw [hk']
      rfl
    | cons pn l2' =>
      obtain ⟨n, nv⟩ := pn
      subst hl2
      obtain ⟨hn, hseg4⟩ := hseg3
      rw [List.map_cons, List.nodup_cons] at hnd2
      obtain ⟨hnl2', hnd2'⟩ := hnd2
      have hkn : k ≠ n := fun he => hkl2 (by simp [he])
      have hnmem : n ∈ m.items.map Prod.fst := by
        rw [hperm.mem_iff]
        simp
      refine ⟨⟨alInsert m.items n ⟨nv, headOr l2' none, none⟩, some n, m.newest⟩,
        ?_, rfl, ?_, ?_, ?_, ⟨⟨v, headOr ((n, nv) :: l2') none, none⟩, ?_, rfl⟩⟩
      · unfold LruMap.remove_entry
        rw [hk']
        simp only [headOr, hn]
      · rw [hnew]
        rfl
      · refine ⟨alLookup_alInsert_self _ _ _, ?_⟩
        refine seg_congr _ _ l2' (some n) none (fun a ha => ?_) hseg4
        exact alLookup_alInsert_ne _ _ _ _ (fun he => hnl2' (he ▸ ha))
      · exact alInsert_keys_of_mem _ _ _ hnmem
      · rw [alLookup_alInsert_ne _ _ _ _ (Ne.symm hkn)]
        exact hk'
  · -- the removed key has an older neighbour
    rw [List.concat_eq_append] at h1
    obtain ⟨p, pv⟩ := q
    subst h1
    have hk' : alLookup m.items k = some ⟨v, headOr l2 none, some p⟩ := by
      rw [hk, lastKey_concat]
    rw [seg_append_iff] at hseg1
    obtain ⟨hseg1', hsegp⟩ := hseg1
    obtain ⟨hp, -⟩ := hsegp
    have hp' : alLookup m.items p = some ⟨pv, some k, lastKey none l1'⟩ := hp
    have hpl1' : p ∉ l1'.map Prod.fst := by
      have hperm1 : List.Perm (l1'.map Prod.fst ++ [p]) (p :: l1'.map Prod.fst) :=
        List.perm_append_singleton _ _
      have hnd1' := hperm1.nodup (by simpa using hnd1)
      exact (List.nodup_cons.mp hnd1').1
    have hpk : p ≠ k := fun he => hdisj (a := p) (by simp) (by simp [he])
    have hpmem : p ∈ m.items.map Prod.fst := by
      rw [hperm.mem_iff]
      simp
    have hl1ne : l1' ++ [(p, pv)] ≠ [] := by simp
    cases hl2 : l2 with
    | nil =>
      subst hl2
      refine ⟨⟨alInsert m.items p ⟨pv, none, lastKey none l1'⟩, m.oldest, some p⟩,
        ?_, ?_, ?_, ?_, ?_,
        ⟨⟨v, headOr ([] : List (K × V)) none, some p⟩, ?_, rfl⟩⟩
      · unfold LruMap.remove_entry
        rw [hk']
        simp only [headOr, hp']
      · rw [hold, List.append_nil, headOr_append]
        exact headOr_irrel _ _ _ hl1ne
      · rw [List.append_nil, lastKey_concat]
      · rw [List.append_nil, seg_append_iff]
        refine ⟨?_, ?_⟩
        · refine seg_congr _ _ l1' none (headOr [(p, pv)] none) (fun a ha => ?_) hseg1'
          exact alLookup_alInsert_ne _ _ _ _ (fun he => hpl1' (he ▸ ha))
        · exact ⟨alLookup_alInsert_self _ _ _, trivial⟩
      · exact alInsert_keys_of_mem _ _ _ hpmem
      · rw [alLookup_alInsert_ne _ _ _ _ hpk]
        exact hk'
    | cons pn l2' =>
      obtain ⟨n, nv⟩ := pn
      subst hl2
      obtain ⟨hn, hseg4⟩ := hseg3
      rw [List.map_cons, List.nodup_cons] at hnd2
      obtain ⟨hnl2', hnd2'⟩ := hnd2
      have hkn : k ≠ n := fun he => hkl2 (by simp [he])
      have hpn : p ≠ n := fun he => hdisj (a := p) (by simp) (by simp [he])
      have hnmem : n ∈ m.items.map Prod.fst := by
        rw [hperm.mem_iff]
        simp
      have hn1 : alLookup (alInsert m.items p ⟨pv, some n, lastKey none l1'⟩) n =
          some ⟨nv, headOr l2' none, some k⟩ := by
        rw [alLookup_alInsert_ne _ _ _ _ hpn]
        exact hn
      have hkeys1 : (alInsert m.items p ⟨pv, some n, lastKey none l1'⟩).map Prod.fst =
          m.items.map Prod.fst := alInsert_keys_of_mem _ _ _ hpmem
      refine ⟨⟨alInsert (alInsert m.items p ⟨pv, some n, lastKey none l1'⟩) n
          ⟨nv, headOr l2' none, some p⟩, m.oldest, m.newest⟩,
        ?_, ?_, ?_, ?_, ?_,
        ⟨⟨v, headOr ((n, nv) :: l2') none, some p⟩, ?_, rfl⟩⟩
      · unfold LruMap.remove_entry
        rw [hk']
        simp only [headOr, hp', hn1]
      · rw [hold, headOr_append, headOr_append, headOr_append, headOr_append]
        exact congrArg (headOr l1') (headOr_irrel _ _ _ (by simp))
      · rw [hnew, lastKey_append, lastKey_append, lastKey_append, lastKey_append]
        rfl
      · rw [seg_append_iff]
        constructor
        · rw [seg_append_iff]
          constructor
          · refine seg_congr _ _ l1' none _ (fun a ha => ?_) hseg1'
            have han : a ≠ n := fun he => hdisj (a := a) (by simp [ha]) (by simp [he])
            have hap : a ≠ p := fun he => hpl1' (he ▸ ha)
            rw [alLookup_alInsert_ne _ _ _ _ (Ne.symm han),
              alLookup_alInsert_ne _ _ _ _ (Ne.symm hap)]
          · refine ⟨?_, trivial⟩
            rw [alLookup_alInsert_ne _ _ _ _ (Ne.symm hpn), alLookup_alInsert_self]
            rfl
        · rw [lastKey_concat]
          refine ⟨alLookup_alInsert_self _ _ _, ?_⟩
          refine seg_congr _ _ l2' (some n) none (fun a ha => ?_) hseg4
          have han : a ≠ n := fun he => hnl2' (he ▸ ha)
          have hap : a ≠ p := fun he => hdisj (a := a) (by simp [he]) (by simp [ha])
          rw [alLookup_alInsert_ne _ _ _ _ (Ne.symm han),
            alLookup_alInsert_ne _ _ _ _ (Ne.symm hap)]
      · rw [alInsert_keys_of_mem _ _ _ (hkeys1 ▸ hnmem), hkeys1]
      · rw [alLookup_alInsert_ne _ _ _ _ (Ne.symm hkn),
          alLookup_alInsert_ne _ _ _ _ hpk]
        exact hk'

/-- Effect of `insert_newest` on a chained sequence `L` whose hash map also
holds the (unlinked) key `k`: the key is linked in as newest, so the map
now represents `L ++ [(k, v)]`. -/
theorem insert_newest_spec {K V : Type} [DecidableEq K] (m1 : LruMap K V)
    (L : List (K × V)) (k : K) (v : V) (e : Entry K V)
    (hold : m1.oldest = headOr L none)
    (hnew : m1.newest = lastKey none L)
    (hseg : Seg m1.items none L none)
    (hkmem : alLookup m1.items k = some e) (hev : e.value = v)
    (hknotin : k ∉ L.map Prod.fst)
    (hnd : (m1.items.map Prod.fst).Nodup)
    (hperm : List.Perm (m1.items.map Prod.fst) (k :: L.map Prod.fst)) :
    ∃ m2, m1.insert_newest k = (some (), m2) ∧ Represents m2 (L ++ [(k, v)]) := by
  subst hev
  have hkmemkeys : k ∈ m1.items.map Prod.fst :=
    (alLookup_isSome_iff_mem _ _).mp (by rw [hkmem]; rfl)
  have hLnd : (k :: L.map Prod.fst).Nodup := hperm.nodup hnd
  rw [List.nodup_cons] at hLnd
  obtain ⟨-, hLnd⟩ := hLnd
  rcases List.eq_nil_or_concat L with hL | ⟨L3, q, hL⟩
  · subst hL
    refine ⟨⟨alInsert m1.items k ⟨e.value, none, none⟩, some k, some k⟩, ?_,
      rfl, rfl, ⟨?_, trivial⟩, ?_, ?_⟩
    · unfold LruMap.insert_newest
      rw [hkmem]
      simp only [hold, hnew, headOr, lastKey]
    · exact alLookup_alInsert_self _ _ _
    · rw [alInsert_keys_of_mem _ _ _ hkmemkeys]
      simpa using hperm
    · rw [alInsert_keys_of_mem _ _ _ hkmemkeys]
      exact hnd
  · rw [List.concat_eq_append] at hL
    obtain ⟨n, nv⟩ := q
    subst hL
    have hnL3 : n ∉ L3.map Prod.fst := by
      have hperm1 : List.Perm (L3.map Prod.fst ++ [n]) (n :: L3.map Prod.fst) :=
        List.perm_append_singleton _ _
      have := hperm1.nodup (by simpa using hLnd)
      exact (List.nodup_cons.mp this).1
    have hkn : k ≠ n := fun he => hknotin (by simp [he])
    have hnmem : n ∈ m1.items.map Prod.fst := by
      rw [hperm.mem_iff]
      simp
    rw [seg_append_iff] at hseg
    obtain ⟨hsegL3, hsegn⟩ := hseg
    obtain ⟨hn, -⟩ := hsegn
    have hn' : alLookup m1.items n = some ⟨nv, none, lastKey none L3⟩ := hn
    have hnewn : m1.newest = some n := by rw [hnew, lastKey_concat]
    have hlook : alLookup (alInsert m1.items k ⟨e.value, none, some n⟩) n =
        some ⟨nv, none, lastKey none L3⟩ := by
      rw [alLookup_alInsert_ne _ _ _ _ hkn]
      exact hn'
    have hkeys1 : (alInsert m1.items k ⟨e.value, none, some n⟩).map Prod.fst =
        m1.items.map Prod.fst := alInsert_keys_of_mem _ _ _ hkmemkeys
    refine ⟨⟨alInsert (alInsert m1.items k ⟨e.value, none, some n⟩) n
        ⟨nv, some k, lastKey none L3⟩, m1.oldest, some k⟩, ?_, ?_, ?_, ?_, ?_, ?_⟩
    · unfold LruMap.insert_newest
      rw [hkmem, hnewn]
      rcases hh : headOr (L3 ++ [(n, nv)]) none with - | x
      · exact absurd hh (headOr_concat_ne_none _ _)
      · rw [hold, hh]
        simp only [hlook]
    · rw [hold, headOr_append, headOr_append, headOr_append]
      exact congrArg (headOr L3) (headOr_irrel _ _ _ (by simp))
    · rw [lastKey_concat]
    · rw [seg_append_iff]
      constructor
      · rw [seg_append_iff]
        constructor
        · refine seg_congr _ _ L3 none _ (fun a ha => ?_) hsegL3
          have han : a ≠ n := fun he => hnL3 (he ▸ ha)
          have hak : a ≠ k := fun he => hknotin (by simp [he ▸ ha])
          rw [alLookup_alInsert_ne _ _ _ _ (Ne.symm han),
            alLookup_alInsert_ne _ _ _ _ (Ne.symm hak)]
        · exact ⟨alLookup_alInsert_self _ _ _, trivial⟩
      · rw [lastKey_concat]
        refine ⟨?_, trivial⟩
        rw [alLookup_alInsert_ne _ _ _ _ (Ne.symm hkn), alLookup_alInsert_self]
        rfl
    · rw [alInsert_keys_of_mem _ _ _ (hkeys1 ▸ hnmem), hkeys1]
      refine hperm.trans ?_
      have hmapsnoc : (((L3 ++ [(n, nv)]) ++ [(k, e.value)]).map Prod.fst) =
          (L3 ++ [(n, nv)]).map Prod.fst ++ [k] := by simp
      rw [hmapsnoc]
      exact (List.perm_append_singleton _ _).symm
    · rw [alInsert_keys_of_mem _ _ _ (hkeys1 ▸ hnmem), hkeys1]
      exact hnd

/-- `set_newest` on a represented map containing the key: it succeeds and
the map afterwards represents the same sequence with the key moved to the
newest end. -/
theorem set_newest_spec {K V : Type} [DecidableEq K] (m : LruMap K V)
    (l1 l2 : List (K × V)) (k : K) (v : V)
    (hrep : Represents m (l1 ++ (k, v) :: l2)) :
    ∃ m2, m.set_newest k = (some (), m2) ∧
      Represents m2 ((l1 ++ l2) ++ [(k, v)]) := by
  obtain ⟨m1, heq, hold, hnew, hseg, hkeys, e, hke, hev⟩ := remove_entry_spec m l1 l2 k v hrep
  obtain ⟨-, -, -, hperm, hnd⟩ := hrep
  have hlnd : ((l1 ++ (k, v) :: l2).map Prod.fst).Nodup := hperm.nodup hnd
  have hknotin : k ∉ (l1 ++ l2).map Prod.fst := by
    rw [List.map_append, List.map_cons, List.nodup_append, List.nodup_cons] at hlnd
    obtain ⟨-, ⟨hk2, -⟩, hdisj⟩ := hlnd
    rw [List.map_append, List.mem_append]
    rintro (h | h)
    · exact hdisj (a := k) h (by simp)
    · exact hk2 h
  have hperm1 : List.Perm (m1.items.map Prod.fst) (k :: (l1 ++ l2).map Prod.fst) := by
    rw [hkeys]
    refine hperm.trans ?_
    simp only [List.map_append, List.map_cons]
    exact List.perm_middle
  obtain ⟨m2, heq2, hrep2⟩ := insert_newest_spec m1 (l1 ++ l2) k v e hold hnew hseg
    hke hev hknotin (hkeys ▸ hnd) hperm1
  refine ⟨m2, ?_, hrep2⟩
  unfold LruMap.set_newest
  rw [heq]
  exact heq2

/-- `take_oldest` on a represented non-empty map returns the oldest pair
and leaves a map representing the rest. -/
theorem take_oldest_spec {K V : Type} [DecidableEq K] (m : LruMap K V)
    (k : K) (v : V) (rest : List (K × V))
    (hrep : Represents m ((k, v) :: rest)) :
    ∃ m2, m.take_oldest = (some (k, v), m2) ∧ Represents m2 rest := by
  have hold0 : m.oldest = some k := hrep.1
  obtain ⟨m1, heq, hold, hnew, hseg, hkeys, e, hke, hev⟩ :=
    remove_entry_spec m [] rest k v (by simpa using hrep)
  obtain ⟨-, -, -, hperm, hnd⟩ := hrep
  simp only [List.nil_append] at hold hnew hseg
  have hnd1 : (m1.items.map Prod.fst).Nodup := hkeys ▸ hnd
  have hlnd : (((k, v) :: rest).map Prod.fst).Nodup := hperm.nodup hnd
  rw [List.map_cons, List.nodup_cons] at hlnd
  obtain ⟨hkrest, hrestnd⟩ := hlnd
  have hrem := alRemove_fst m1.items k
  rw [hke] at hrem
  refine ⟨⟨(alRemove m1.items k).2, m1.oldest, m1.newest⟩, ?_, ?_, ?_, ?_, ?_, ?_⟩
  · unfold LruMap.take_oldest
    rw [hold0]
    simp only [heq]
    rcases hr : alRemove m1.items k with ⟨r, items'⟩
    rw [hr] at hrem
    simp only at hrem
    subst hrem
    simp only [hev]
  · exact hold
  · exact hnew
  · refine seg_congr _ _ rest none none (fun a ha => ?_) hseg
    exact alRemove_snd_lookup_ne _ _ _ (fun he => hkrest (he ▸ ha))
  · rw [alRemove_keys, hkeys]
    have := hperm.erase k
    simpa using this
  · rw [alRemove_keys]
    exact (List.erase_sublist _ _).nodup hnd1

/-- `take_oldest` on a represented empty map returns `none` and leaves the
map unchanged. -/
theorem take_oldest_empty {K V : Type} [DecidableEq K] (m : LruMap K V)
    (hrep : Represents m []) : m.take_oldest = (none, m) := by
  have hold : m.oldest = none := hrep.1
  unfold LruMap.take_oldest
  rw [hold]

/-- Draining a represented map with `take_oldest` returns exactly the
represented sequence, oldest first. -/
theorem drain_spec {K V : Type} [DecidableEq K] (l : List (K × V)) :
    ∀ m : LruMap K V, Represents m l → drain l.length m = l := by
  induction l with
  | nil => intro m _; rfl
  | cons p rest ih =>
    intro m hrep
    obtain ⟨a, b⟩ := p
    obtain ⟨m2, heq, hrep2⟩ := take_oldest_spec m a b rest hrep
    simp only [List.length_cons, drain, heq]
    exact congrArg (List.cons (a, b)) (ih m2 hrep2)

/-- **C7**: for every represented recency map containing key `k` and at
least one other key, after a successful `set_newest k` repeated
`take_oldest` returns every other currently-present key (in their relative
recency order) before finally returning `k`; and `set_newest` on an absent
key returns `none` and leaves the map unchanged. -/
theorem claim7_set_newest_order {K V : Type} [DecidableEq K]
    (m mAbs : LruMap K V) (l1 l2 : List (K × V)) (k : K) (v : V) (a : K)
    (hrep : Represents m (l1 ++ (k, v) :: l2))
    (_hother : l1 ++ l2 ≠ [])
    (habs : alLookup mAbs.items a = none) :
    (∃ m2, m.set_newest k = (some (), m2) ∧
      drain ((l1 ++ l2) ++ [(k, v)]).length m2 = (l1 ++ l2) ++ [(k, v)]) ∧
    mAbs.set_newest a = (none, mAbs) := by
  constructor
  · obtain ⟨m2, heq, hrep2⟩ := set_newest_spec m l1 l2 k v hrep
    exact ⟨m2, heq, drain_spec _ m2 hrep2⟩
  · unfold LruMap.set_newest LruMap.remove_entry
    rw [habs]

/-- Witness for C7: a two-entry map (1 oldest, 2 newest); `set_newest 2`
succeeds and draining yields 1 before 2, while `set_newest 5` (absent) is a
no-op returning `none`. -/
theorem claim7_set_newest_order_witness :
    (∃ m2, (⟨[(1, ⟨10, some 2, none⟩), (2, ⟨20, none, some 1⟩)], some 1, some 2⟩ :
        LruMap Nat Nat).set_newest 2 = (some (), m2) ∧
      drain (([(1, 10)] ++ []) ++ [(2, 20)]).length m2 =
        ([(1, 10)] ++ []) ++ [(2, 20)]) ∧
    (⟨[(1, ⟨10, some 2, none⟩), (2, ⟨20, none, some 1⟩)], some 1, some 2⟩ :
        LruMap Nat Nat).set_newest 5 =
      (none, ⟨[(1, ⟨10, some 2, none⟩), (2, ⟨20, none, some 1⟩)], some 1, some 2⟩) :=
  claim7_set_newest_order
    ⟨[(1, ⟨10, some 2, none⟩), (2, ⟨20, none, some 1⟩)], some 1, some 2⟩
    ⟨[(1, ⟨10, some 2, none⟩), (2, ⟨20, none, some 1⟩)], some 1, some 2⟩
    [(1, 10)] [] 2 20 5
    ⟨rfl, rfl, ⟨rfl, rfl, trivial⟩, by decide, by decide⟩ (by decide) rfl

/-- **C8 (amended)**: `insert` on a key that is already present is *not* a
no-op: it overwrites the stored value with the new value and relinks the
key as newest (`newest = key`). -/
theorem claim8_insert_overwrites {K V : Type} [DecidableEq K] (m : LruMap K V)
    (l : List (K × V)) (k : K) (v : V)
    (hrep : Represents m l) (hmem : k ∈ l.map Prod.fst) :
    (∃ e : Entry K V, alLookup (m.insert k v).items k = some e ∧ e.value = v) ∧
    (m.insert k v).newest = some k := by
  obtain ⟨hold, hnew, hseg, hperm, hnd⟩ := hrep
  have hlne : l ≠ [] := by
    rintro rfl
    simp at hmem
  rcases List.eq_nil_or_concat l with rfl | ⟨L3, q, hL⟩
  · exact absurd rfl hlne
  · rw [List.concat_eq_append] at hL
    obtain ⟨n, nv⟩ := q
    subst hL
    have hnewn : m.newest = some n := by rw [hnew, lastKey_concat]
    have ho : ∃ o, m.oldest = some o := by
      rw [hold]
      rcases hh : headOr (L3 ++ [(n, nv)]) none with - | x
      · exact absurd hh (headOr_concat_ne_none _ _)
      · exact ⟨x, rfl⟩
    obtain ⟨o, ho⟩ := ho
    have hnmem : n ∈ m.items.map Prod.fst := by
      rw [hperm.mem_iff]
      simp
    obtain ⟨en, hen⟩ := Option.isSome_iff_exists.mp
      ((alLookup_isSome_iff_mem m.items n).mpr hnmem)
    have h1 : alLookup (alInsert m.items k ⟨v, none, none⟩) k =
        some ⟨v, none, none⟩ := alLookup_alInsert_self _ _ _
    by_cases hnk : n = k
    · subst hnk
      refine ⟨⟨⟨v, some n, m.newest⟩, ?_, rfl⟩, ?_⟩ <;>
        simp only [LruMap.insert, LruMap.insert_newest, h1, ho, hnewn,
          alLookup_alInsert_self]
    · have h2 : alLookup (alInsert (alInsert m.items k ⟨v, none, none⟩) k
          ⟨v, none, some n⟩) k = some ⟨v, none, some n⟩ :=
        alLookup_alInsert_self _ _ _
      have h3 : alLookup (alInsert (alInsert m.items k ⟨v, none, none⟩) k
          ⟨v, none, some n⟩) n = some en := by
        rw [alLookup_alInsert_ne _ _ _ _ (fun he => hnk he.symm),
          alLookup_alInsert_ne _ _ _ _ (fun he => hnk he.symm)]
        exact hen
      refine ⟨⟨⟨v, none, some n⟩, ?_, rfl⟩, ?_⟩ <;>
        simp only [LruMap.insert, LruMap.insert_newest, h1, ho, hnewn, h2, h3,
          alLookup_alInsert_self, alLookup_alInsert_ne _ _ _ _ hnk]

/-- Witness for C8: re-inserting key 1 (holding 10) with value 99 in a
two-entry map stores 99 under key 1 and makes it newest. -/
theorem claim8_insert_overwrites_witness :
    (∃ e : Entry Nat Nat,
      alLookup (((⟨[(1, ⟨10, some 2, none⟩), (2, ⟨20, none, some 1⟩)], some 1, some 2⟩ :
        LruMap Nat Nat).insert 1 99).items) 1 = some e ∧ e.value = 99) ∧
    ((⟨[(1, ⟨10, some 2, none⟩), (2, ⟨20, none, some 1⟩)], some 1, some 2⟩ :
        LruMap Nat Nat).insert 1 99).newest = some 1 :=
  claim8_insert_overwrites
    ⟨[(1, ⟨10, some 2, none⟩), (2, ⟨20, none, some 1⟩)], some 1, some 2⟩
    [(1, 10), (2, 20)] 1 99
    ⟨rfl, rfl, ⟨rfl, rfl, trivial⟩, by decide, by decide⟩ (by decide)

/-- Counterexample to C8 as stated: inserting key 1 again with value 99
into the singleton map holding 1 ↦ 10 is not a no-op — the stored value
becomes 99 (and the entry's links are freshly rewritten), so the map
changes. -/
theorem claim8_counterexample :
    ((LruMap.new : LruMap Nat Nat).insert 1 10).insert 1 99 ≠
      (LruMap.new : LruMap Nat Nat).insert 1 10 ∧
    alLookup (((LruMap.new : LruMap Nat Nat).insert 1 10).insert 1 99).items 1 =
      some ⟨99, some 1, some 1⟩ ∧
    alLookup ((LruMap.new : LruMap Nat Nat).insert 1 10).items 1 =
      some ⟨10, none, none⟩ := by decide

/-- **C10 is false of the code**: with `capacity = 7 < 8` the threshold
`capacity / 8 * 7` is `0`, so once the evicting flag is set it can never be
cleared, and a `try_alloc` in the evicting state with an empty recency
structure reaches `pop_lru().expect("should have item")` on an empty cache:
the modelled run panics. Trace: `try_alloc 7 → Success`, `try_alloc 1 →
Evict` (emptying the structure), `try_alloc 1 → panic`. -/
theorem claim10_panics :
    runAllocs (Allocator.new 7 [1, 2, 3]) [7, 1] =
      .ok ([.success 1, .evict 1], ⟨0, 7, true, [2, 3], []⟩) ∧
    (⟨0, 7, true, [2, 3], []⟩ : Allocator).try_alloc 1 = .error .panic ∧
    runAllocs (Allocator.new 7 [1, 2, 3]) [7, 1, 1] = .error .panic := by decide

end SharedLru
